import Mathlib

/-!
Verification of the transformation-tree engine (ts_modeling/tree/tree.py).

The Python code mutates `Node` objects in place (anytree `NodeMixin`), so
object identity matters.  We model the world as a heap: a list of node
records indexed by natural-number references.  A `Node` record carries the
operation payload's display name, the parent reference, the ordered list
of child references and the optional identifier, exactly the attributes
the source reads and writes.  The anytree parent setter (triggered by
`Node.set_parent` / `self.parent = parent`) is modelled faithfully:
same-parent assignment is a no-op, a loop check walks the would-be
parent's ancestor chain before any mutation, and otherwise the node is
removed from its old parent's child list, appended to the new parent's
child list, and its parent field updated.

Exceptions propagate in Python while leaving already-performed mutations
in place, so every operation returns the resulting state together with an
optional error instead of an `Except` that would discard partial state.
-/

/-- A single Python `Node` object: `function.__name__`, the anytree parent
back-reference, the ordered children list, and the optional identifier
(`self.id`, `None` until the node is inserted into a tree). -/
structure NodeData where
  name : String
  parent : Option Nat
  children : List Nat
  id : Option Nat
deriving Repr, DecidableEq

/-- The object heap: node records indexed by reference. -/
abbrev Heap := List NodeData

/-- Dereference a node. -/
def getN : Heap → Nat → Option NodeData
  | [], _ => none
  | d :: _, 0 => some d
  | _ :: h, n + 1 => getN h n

/-- In-place update of the record at a reference (no-op when out of range,
which never happens for references to real objects). -/
def modifyNode : Heap → Nat → (NodeData → NodeData) → Heap
  | [], _, _ => []
  | d :: h, 0, f => f d :: h
  | d :: h, n + 1, f => d :: modifyNode h n f

/-- The identifier currently stored at a reference. -/
def idOfRef (h : Heap) (r : Nat) : Option Nat :=
  (getN h r).bind NodeData.id

/-- anytree `iter_path_reverse`: the node followed by its ancestor chain.
Fuel bounds the walk; every chain arising from the modelled operations is
acyclic and shorter than the heap, so `h.length` fuel is always enough. -/
def iterPathReverse (h : Heap) : Nat → Nat → List Nat
  | 0, _ => []
  | fuel + 1, r =>
    match (getN h r).bind NodeData.parent with
    | some p => r :: iterPathReverse h fuel p
    | none => [r]

/-- Errors the Python code can raise while mutating. -/
inductive TreeError where
  | precondition
  | loopError
  | indexError
deriving Repr, DecidableEq

/-- anytree parent setter, as invoked by `Node.set_parent`: no-op if the
parent is unchanged, `LoopError` (before any mutation) if the new parent
is the node itself or a descendant of it, otherwise detach from the old
parent's children, append to the new parent's children and set the parent
field.  Returns `none` exactly when `LoopError` is raised. -/
def set_parent (h : Heap) (selfr value : Nat) : Option Heap :=
  let cur := (getN h selfr).bind NodeData.parent
  if cur = some value then some h
  else if selfr ∈ iterPathReverse h h.length value then none
  else
    let h1 := match cur with
      | some oldp => modifyNode h oldp
          (fun d => { d with children := d.children.filter (fun c => c ≠ selfr) })
      | none => h
    let h2 := modifyNode h1 value
      (fun d => { d with children := d.children ++ [selfr] })
    some (modifyNode h2 selfr (fun d => { d with parent := some value }))

/-- The `TTree` object: `name`, the root reference, `id_iterator`, and the
private membership list `__nodes` (ordered, may hold duplicate
references). -/
structure TTree where
  name : String
  root : Nat
  id_iterator : Nat
  nodes : List Nat
deriving Repr, DecidableEq

/-- TTree.__init__: store the root, give it identifier 0, start the
counter at 1 and initialise `__nodes` with the root. -/
def mkTTree (h : Heap) (nm : String) (root : Nat) : Heap × TTree :=
  (modifyNode h root (fun d => { d with id := some 0 }),
   ⟨nm, root, 1, [root]⟩)

/-- TTree.set_id: assign the node the current counter value and advance
the counter. -/
def TTree.set_id (h : Heap) (t : TTree) (r : Nat) : Heap × TTree :=
  (modifyNode h r (fun d => { d with id := some t.id_iterator }),
   { t with id_iterator := t.id_iterator + 1 })

/-- TTree.add_node: when both arguments are non-null and the target is in
`__nodes`, set the new node's parent, append it to `__nodes` and assign it
the next identifier; otherwise do nothing. -/
def add_node (h : Heap) (t : TTree) (target new_node : Option Nat) :
    (Heap × TTree) × Option TreeError :=
  match target, new_node with
  | some tg, some nn =>
    if tg ∈ t.nodes then
      match set_parent h nn tg with
      | none => ((h, t), some .loopError)
      | some h1 =>
        let t1 := { t with nodes := t.nodes ++ [nn] }
        (TTree.set_id h1 t1 nn, none)
    else ((h, t), none)
  | _, _ => ((h, t), none)

/-- TTree.add_nodes is an empty stub in the source (`pass`): it performs
no mutation whatsoever. -/
def add_nodes (h : Heap) (t : TTree) (_target : Nat) (_nodes : List Nat) :
    (Heap × TTree) × Option TreeError :=
  ((h, t), none)

/-- The loop body of TTree.__add_newpath_byref: each node of the path is
parented under the previous one and given a fresh identifier.  An anytree
`LoopError` aborts the loop, keeping the mutations already made. -/
def byrefGo : Heap → TTree → Nat → List Nat → (Heap × TTree) × Option TreeError
  | h, t, _, [] => ((h, t), none)
  | h, t, prev, x :: xs =>
    match set_parent h x prev with
    | none => ((h, t), some .loopError)
    | some h1 =>
      let p := TTree.set_id h1 t x
      byrefGo p.1 p.2 x xs

/-- TTree.__add_newpath_byref: `path[0]` is parented under the target and
each later element under its predecessor, every element receiving the
next identifier.  An empty path raises `IndexError` at `path[0]`. -/
def add_newpath_byref (h : Heap) (t : TTree) (target : Nat) (path : List Nat) :
    (Heap × TTree) × Option TreeError :=
  match path with
  | [] => ((h, t), some .indexError)
  | _ :: _ => byrefGo h t target path

/-- The membership precondition of TTree.add_newpath, exactly as coded:
`if node.id:` is a Python truthiness test, so it fires only on a nonzero
identifier (identifier 0 and `None` are both falsy). -/
def pathIdCheck (h : Heap) (path : List Nat) : Bool :=
  path.any (fun r =>
    match idOfRef h r with
    | some (_ + 1) => true
    | _ => false)

/-- TTree.add_newpath on a list path: raise the precondition error if any
path element has a truthy identifier, else chain the path by reference.
A single-node argument is wrapped into a one-element list by the source
before reaching this code. -/
def add_newpath (h : Heap) (t : TTree) (target : Nat) (path : List Nat) :
    (Heap × TTree) × Option TreeError :=
  if pathIdCheck h path then ((h, t), some .precondition)
  else add_newpath_byref h t target path

/-- anytree PostOrderIter: children (in order) before the node itself.
Fuel-bounded like `iterPathReverse`. -/
def postorder (h : Heap) : Nat → Nat → List Nat
  | 0, _ => []
  | fuel + 1, r =>
    (((getN h r).map NodeData.children).getD []).flatMap (postorder h fuel) ++ [r]

/-- The target loop of TTree.add_newpath_byid: each resolved target gets
the path attached by reference — the same node references each time, no
copy is taken.  A raised exception aborts the remaining iterations. -/
def byidGo : Heap → TTree → List Nat → List Nat → (Heap × TTree) × Option TreeError
  | h, t, [], _ => ((h, t), none)
  | h, t, tg :: tgs, path =>
    match add_newpath_byref h t tg path with
    | (s, none) => byidGo s.1 s.2 tgs path
    | (s, some e) => (s, some e)

/-- TTree.add_newpath_byid: validate the path exactly like add_newpath,
resolve every current member whose identifier equals the argument (a
post-order search from the root, materialised before any mutation), then
attach the path by reference to each match in turn. -/
def add_newpath_byid (h : Heap) (t : TTree) (target_id : Nat) (path : List Nat) :
    (Heap × TTree) × Option TreeError :=
  if pathIdCheck h path then ((h, t), some .precondition)
  else
    let targets := (postorder h h.length t.root).filter
      (fun r => idOfRef h r == some target_id)
    byidGo h t targets path

/-- Node construction `Node(function)` with default arguments: a fresh
detached record (no parent, no children, no identifier) appended to the
heap; the reference to it is returned. -/
def newNode (h : Heap) (nm : String) : Heap × Nat :=
  (h ++ [⟨nm, none, [], none⟩], h.length)

/-- Combined effect of attaching one fresh (parentless) node `x` under
`p` and assigning it identifier `i`: this is what one iteration of the
path-attachment loop, and the mutation part of add_node, do to the heap. -/
def attachStep (h : Heap) (p x i : Nat) : Heap :=
  modifyNode
    (modifyNode
      (modifyNode h p (fun d => { d with children := d.children ++ [x] }))
      x (fun d => { d with parent := some p }))
    x (fun d => { d with id := some i })

/-- No record in the heap designates `x` as its parent.  Holds for
freshly constructed nodes and rules out `x` sitting on any ancestor
chain. -/
def noIncoming (h : Heap) (x : Nat) : Prop :=
  ∀ d ∈ h, d.parent ≠ some x

instance (h : Heap) (x : Nat) : Decidable (noIncoming h x) := by
  unfold noIncoming; infer_instance

/-- The public mutation operations of TTree, for reasoning about
arbitrary operation sequences. -/
inductive Op where
  | addNode (target new_node : Option Nat)
  | addNodes (target : Nat) (nodes : List Nat)
  | addPath (target : Nat) (path : List Nat)
  | addPathById (target_id : Nat) (path : List Nat)

/-- An operation references only real objects where the bookkeeping needs
it: add_node must be handed an actual Node object (a reference inside the
heap) to register as a member. -/
def opValid (n : Nat) : Op → Bool
  | .addNode _ (some nn) => decide (nn < n)
  | _ => true

/-- Execute one operation; a raised exception leaves the mutations made
so far in place, which is exactly the state the returned pair carries. -/
def step (s : Heap × TTree) : Op → Heap × TTree
  | .addNode tg nn => (add_node s.1 s.2 tg nn).1
  | .addNodes tg ns => (add_nodes s.1 s.2 tg ns).1
  | .addPath tg p => (add_newpath s.1 s.2 tg p).1
  | .addPathById tid p => (add_newpath_byid s.1 s.2 tid p).1

/-- Execute a sequence of operations. -/
def run (s : Heap × TTree) : List Op → Heap × TTree
  | [] => s
  | op :: ops => run (step s op) ops

/-- The identifier invariant: every member of the tree has an identifier
below the counter, and distinct member nodes carry distinct
identifiers. -/
def IdInv (h : Heap) (t : TTree) : Prop :=
  (∀ r ∈ t.nodes, ∃ k, idOfRef h r = some k ∧ k < t.id_iterator) ∧
  (∀ r1 ∈ t.nodes, ∀ r2 ∈ t.nodes, r1 ≠ r2 → idOfRef h r1 ≠ idOfRef h r2)

/-- Pure structural view of a node subtree: display name, identifier and
children, which is all the round-trip claim compares. -/
inductive PTree where
  | node (name : String) (id : Option Nat) (children : List PTree)

/-- Read the structural tree rooted at a reference out of the heap.  Fuel
bounds the depth; `h.length` is always enough for the heaps built here,
whose child references strictly decrease. -/
def extract (h : Heap) : Nat → Nat → PTree
  | 0, _ => .node "" none []
  | fuel + 1, r =>
    match getN h r with
    | none => .node "" none []
    | some d => .node d.name d.id (d.children.map (extract h fuel))

/-- Modelled from the spec: the information content of the pickle file
written by TTree.save.  The byte layout is implementation-defined (spec
section 6); what the format must carry is the tree name, the
next-identifier counter and the root's whole structural tree (operation
descriptor names, identifiers, parent/child links).  The members list is
not among the observables the round-trip claim compares and is omitted. -/
structure Snapshot where
  sname : String
  siter : Nat
  stree : PTree

/-- TTree.save: serialize name, counter and the full structural tree. -/
def TTree.save (h : Heap) (t : TTree) : Snapshot :=
  ⟨t.name, t.id_iterator, extract h h.length t.root⟩

/-- Point the parent field of each listed reference at `r`. -/
def patchParents (h : Heap) (refs : List Nat) (r : Nat) : Heap :=
  refs.foldl (fun acc c => modifyNode acc c (fun d => { d with parent := some r })) h

mutual
/-- Rebuild a node graph from its structural tree on top of an existing
heap: children are allocated first, then the node itself, then the
children's parent fields are pointed back at it. -/
def buildTree : PTree → Heap → Heap × Nat
  | PTree.node nm i cs, h =>
    let p := buildList cs h
    let r := p.1.length
    (patchParents (p.1 ++ [⟨nm, none, p.2, i⟩]) p.2 r, r)

/-- Rebuild a list of sibling subtrees left to right. -/
def buildList : List PTree → Heap → Heap × List Nat
  | [], h => (h, [])
  | c :: cs, h =>
    let q := buildTree c h
    let w := buildList cs q.1
    (w.1, q.2 :: w.2)
end

/-- Modelled from the spec: load_tree deserializes the pickle file,
reconstructing a fresh object graph with the same attributes and
structure and a TTree carrying the stored name and counter. -/
def load_tree (s : Snapshot) : Heap × TTree :=
  let p := buildTree s.stree []
  (p.1, ⟨s.sname, p.2, s.siter, postorder p.1 p.1.length p.2⟩)

/-- The parent-independent view of a node record: display name,
identifier and children.  Rebuilding patches parent fields after a node's
region is complete, and `extract` never reads parents, so correctness
statements compare heaps up to this view. -/
def nodeShape (d : NodeData) : String × Option Nat × List Nat :=
  (d.name, d.id, d.children)

/-- Two heaps agree, up to parent fields, on all references below n. -/
def shapeBelow (n : Nat) (h1 h2 : Heap) : Prop :=
  ∀ i, i < n → (getN h1 i).map nodeShape = (getN h2 i).map nodeShape

/-- The identifier stored at the root of a structural tree. -/
def PTree.idOf : PTree → Option Nat
  | .node _ i _ => i

/-- Correctness bundle for buildTree: the produced reference sits at the
top of the extended heap, the pre-existing region is untouched, and
extracting the reference from any heap that shape-agrees with the built
one (with enough fuel) returns the input tree. -/
def BuildTreeOK (c : PTree) (h : Heap) : Prop :=
  h.length ≤ (buildTree c h).2 ∧
  (buildTree c h).2 + 1 = (buildTree c h).1.length ∧
  (∀ i, i < h.length → getN (buildTree c h).1 i = getN h i) ∧
  (∀ h2 fuel, shapeBelow (buildTree c h).1.length (buildTree c h).1 h2 →
    (buildTree c h).2 < fuel → extract h2 fuel (buildTree c h).2 = c)

/-- Correctness bundle for buildList, mirroring BuildTreeOK for a list of
sibling subtrees. -/
def BuildListOK (cs : List PTree) (h : Heap) : Prop :=
  h.length ≤ (buildList cs h).1.length ∧
  (∀ i, i < h.length → getN (buildList cs h).1 i = getN h i) ∧
  (buildList cs h).2.length = cs.length ∧
  (∀ r ∈ (buildList cs h).2, h.length ≤ r ∧ r < (buildList cs h).1.length) ∧
  (∀ h2 fuel, shapeBelow (buildList cs h).1.length (buildList cs h).1 h2 →
    (buildList cs h).1.length ≤ fuel →
    (buildList cs h).2.map (extract h2 fuel) = cs)

/-- Concrete scenario for the add_newpath_byid evaluation: a root with
two children that both carry identifier 5 (a two-match search, which the
design must tolerate) and a fresh path node at reference 3. -/
def byidState : (Heap × TTree) × Option TreeError :=
  add_newpath_byid
    [⟨"root", none, [1, 2], some 0⟩, ⟨"a", some 0, [], some 5⟩,
     ⟨"b", some 0, [], some 5⟩, ⟨"p", none, [], none⟩]
    ⟨"t", 0, 6, [0, 1, 2]⟩ 5 [3]

/-- Concrete scenario for the membership-closure evaluation: a fresh tree
whose root gets a one-node path attached. -/
def closureStart : Heap × TTree :=
  mkTTree [⟨"root", none, [], none⟩, ⟨"a", none, [], none⟩,
           ⟨"b", none, [], none⟩] "t" 0

/-- The state after attaching the path [1] to the root of closureStart. -/
def closureState : (Heap × TTree) × Option TreeError :=
  add_newpath closureStart.1 closureStart.2 0 [1]

/-- Concrete scenario for the identifier-zero evaluation: two trees are
created over the same heap, so both roots carry identifier 0. -/
def zeroIdFirst : Heap × TTree :=
  mkTTree [⟨"r1", none, [], none⟩, ⟨"r2", none, [], none⟩] "t1" 0

/-- The second tree of the identifier-zero scenario. -/
def zeroIdSecond : Heap × TTree :=
  mkTTree zeroIdFirst.1 "t2" 1

/-- The second tree attaches a path consisting of the first tree's root,
whose identifier is 0. -/
def zeroIdState : (Heap × TTree) × Option TreeError :=
  add_newpath zeroIdSecond.1 zeroIdSecond.2 1 [0]

/-- Concrete scenario for the add_nodes stub evaluation, mirroring the
repository test test_add_nodes: a fresh tree and three fresh nodes. -/
def stubStart : Heap × TTree :=
  mkTTree [⟨"root", none, [], none⟩, ⟨"op1", none, [], none⟩,
           ⟨"op2", none, [], none⟩, ⟨"op3", none, [], none⟩] "test" 0

/-- The result of the add_nodes call of the stub scenario. -/
def stubState : (Heap × TTree) × Option TreeError :=
  add_nodes stubStart.1 stubStart.2 0 [1, 2, 3]

/-- The first of the three sequential add_node calls that the batch
claim compares add_nodes against. -/
def stubSeq1 : (Heap × TTree) × Option TreeError :=
  add_node stubStart.1 stubStart.2 (some 0) (some 1)

/-- The second sequential add_node call of the stub scenario. -/
def stubSeq2 : (Heap × TTree) × Option TreeError :=
  add_node stubSeq1.1.1 stubSeq1.1.2 (some 0) (some 2)

/-- The third sequential add_node call of the stub scenario. -/
def stubSeq3 : (Heap × TTree) × Option TreeError :=
  add_node stubSeq2.1.1 stubSeq2.1.2 (some 0) (some 3)

section Sanity

/-- Sanity: building a tree and attaching one node gives it identifier 1. -/
example :
    let h0 := [(⟨"root", none, [], none⟩ : NodeData), ⟨"op1", none, [], none⟩]
    let p := mkTTree h0 "t" 0
    let q := add_node p.1 p.2 (some 0) (some 1)
    q.2 = none ∧ idOfRef q.1.1 1 = some 1 ∧
      getN q.1.1 0 = some ⟨"root", none, [1], some 0⟩ ∧
      q.1.2.id_iterator = 2 ∧ q.1.2.nodes = [0, 1] := by
  decide

/-- Sanity: add_newpath chains two fresh nodes under the root. -/
example :
    let h0 := [(⟨"root", none, [], none⟩ : NodeData),
               ⟨"a", none, [], none⟩, ⟨"b", none, [], none⟩]
    let p := mkTTree h0 "t" 0
    let q := add_newpath p.1 p.2 0 [1, 2]
    q.2 = none ∧
      getN q.1.1 1 = some ⟨"a", some 0, [2], some 1⟩ ∧
      getN q.1.1 2 = some ⟨"b", some 1, [], some 2⟩ ∧
      q.1.2.id_iterator = 3 ∧ q.1.2.nodes = [0] := by
  decide

/-- Sanity: postorder visits children before the node. -/
example :
    let h0 := [(⟨"root", none, [1, 2], some 0⟩ : NodeData),
               ⟨"a", some 0, [], some 1⟩, ⟨"b", some 0, [], some 2⟩]
    postorder h0 h0.length 0 = [1, 2, 0] := by
  decide

end Sanity

section HeapLemmas

theorem getN_modify (h : Heap) (r : Nat) (f : NodeData → NodeData) (s : Nat) :
    getN (modifyNode h r f) s = if s = r then (getN h r).map f else getN h s := by
  induction h generalizing r s with
  | nil => simp [modifyNode, getN]
  | cons d h ih =>
    cases r with
    | zero =>
      cases s with
      | zero => simp [modifyNode, getN]
      | succ s => simp [modifyNode, getN]
    | succ r =>
      cases s with
      | zero => simp [modifyNode, getN]
      | succ s => simpa [modifyNode, getN, Nat.succ_inj] using ih r s

theorem length_modify (h : Heap) (r : Nat) (f : NodeData → NodeData) :
    (modifyNode h r f).length = h.length := by
  induction h generalizing r with
  | nil => rfl
  | cons d h ih =>
    cases r with
    | zero => rfl
    | succ r => simpa [modifyNode] using ih r

theorem getN_mem {h : Heap} {r : Nat} {d : NodeData} (hd : getN h r = some d) :
    d ∈ h := by
  induction h generalizing r with
  | nil => simp [getN] at hd
  | cons e h ih =>
    cases r with
    | zero => simp [getN] at hd; simp [hd]
    | succ r => exact List.mem_cons_of_mem _ (ih hd)

theorem mem_modify {h : Heap} {r : Nat} {f : NodeData → NodeData} {d : NodeData}
    (hd : d ∈ modifyNode h r f) :
    d ∈ h ∨ ∃ d0, getN h r = some d0 ∧ d = f d0 := by
  induction h generalizing r with
  | nil => simp [modifyNode] at hd
  | cons e h ih =>
    cases r with
    | zero =>
      rcases List.mem_cons.mp hd with h1 | h1
      · exact Or.inr ⟨e, rfl, h1⟩
      · exact Or.inl (List.mem_cons_of_mem _ h1)
    | succ r =>
      rcases List.mem_cons.mp hd with h1 | h1
      · exact Or.inl (by simp [h1])
      · rcases ih h1 with h2 | ⟨d0, hd0, hfd⟩
        · exact Or.inl (List.mem_cons_of_mem _ h2)
        · exact Or.inr ⟨d0, hd0, hfd⟩

theorem noIncoming_modify {h : Heap} {x r : Nat} {f : NodeData → NodeData}
    (hni : noIncoming h x)
    (hf : ∀ d0, getN h r = some d0 → (f d0).parent ≠ some x) :
    noIncoming (modifyNode h r f) x := by
  intro d hd
  rcases mem_modify hd with h1 | ⟨d0, hd0, rfl⟩
  · exact hni d h1
  · exact hf d0 hd0

theorem not_mem_iterPathReverse {h : Heap} {x s : Nat} (fuel : Nat)
    (hxs : x ≠ s) (hni : noIncoming h x) :
    x ∉ iterPathReverse h fuel s := by
  induction fuel generalizing s with
  | zero => simp [iterPathReverse]
  | succ fuel ih =>
    unfold iterPathReverse
    cases hp : (getN h s).bind NodeData.parent with
    | none => simpa using hxs
    | some p =>
      simp only [List.mem_cons]
      rintro (rfl | hmem)
      · exact hxs rfl
      · rcases Option.bind_eq_some.mp hp with ⟨d, hd, hdp⟩
        have hxp : x ≠ p := by
          intro he
          exact hni d (getN_mem hd) (by rw [hdp, he])
        exact ih hxp hmem

end HeapLemmas

section SetParentLemmas

theorem set_parent_fresh {h : Heap} {x p : Nat} {dx : NodeData}
    (hx : getN h x = some dx) (hpar : dx.parent = none) (hne : x ≠ p)
    (hni : noIncoming h x) :
    set_parent h x p =
      some (modifyNode
        (modifyNode h p (fun d => { d with children := d.children ++ [x] }))
        x (fun d => { d with parent := some p })) := by
  unfold set_parent
  simp only [hx, Option.bind_eq_bind, Option.some_bind, hpar]
  rw [if_neg (by simp)]
  rw [if_neg (not_mem_iterPathReverse h.length hne hni)]

theorem set_parent_same {h : Heap} {x p : Nat} {dx : NodeData}
    (hx : getN h x = some dx) (hpar : dx.parent = some p) :
    set_parent h x p = some h := by
  unfold set_parent
  simp [hx, hpar]

theorem set_parent_move {h : Heap} {x p q : Nat} {dx : NodeData}
    (hx : getN h x = some dx) (hpar : dx.parent = some q) (hqp : q ≠ p)
    (hloop : x ∉ iterPathReverse h h.length p) :
    set_parent h x p =
      some (modifyNode
        (modifyNode
          (modifyNode h q
            (fun d => { d with children := d.children.filter (fun c => c ≠ x) }))
          p (fun d => { d with children := d.children ++ [x] }))
        x (fun d => { d with parent := some p })) := by
  unfold set_parent
  simp only [hx, Option.bind_eq_bind, Option.some_bind, hpar]
  rw [if_neg (by simpa using hqp)]
  rw [if_neg hloop]

theorem idOfRef_modify_of_id {h : Heap} {r : Nat} {f : NodeData → NodeData}
    (hf : ∀ d, (f d).id = d.id) (s : Nat) :
    idOfRef (modifyNode h r f) s = idOfRef h s := by
  simp only [idOfRef, getN_modify]
  split
  · rename_i he
    subst he
    cases hg : getN h s <;> simp [hf]
  · rfl

theorem set_parent_ids {h h' : Heap} {x p : Nat}
    (hsp : set_parent h x p = some h') (s : Nat) :
    idOfRef h' s = idOfRef h s := by
  unfold set_parent at hsp
  cases hcur : (getN h x).bind NodeData.parent with
  | none =>
    simp only [hcur] at hsp
    rw [if_neg (by simp)] at hsp
    split at hsp
    · exact absurd hsp (by simp)
    · cases hsp
      rw [idOfRef_modify_of_id (by intro d; rfl),
          idOfRef_modify_of_id (by intro d; rfl)]
  | some q =>
    simp only [hcur] at hsp
    by_cases hq : (some q : Option Nat) = some p
    · rw [if_pos hq] at hsp
      cases hsp
      rfl
    · rw [if_neg hq] at hsp
      split at hsp
      · exact absurd hsp (by simp)
      · cases hsp
        rw [idOfRef_modify_of_id (by intro d; rfl),
            idOfRef_modify_of_id (by intro d; rfl),
            idOfRef_modify_of_id (by intro d; rfl)]

theorem set_parent_length {h h' : Heap} {x p : Nat}
    (hsp : set_parent h x p = some h') : h'.length = h.length := by
  unfold set_parent at hsp
  cases hcur : (getN h x).bind NodeData.parent with
  | none =>
    simp only [hcur] at hsp
    rw [if_neg (by simp)] at hsp
    split at hsp
    · exact absurd hsp (by simp)
    · cases hsp
      simp [length_modify]
  | some q =>
    simp only [hcur] at hsp
    by_cases hq : (some q : Option Nat) = some p
    · rw [if_pos hq] at hsp
      cases hsp
      rfl
    · rw [if_neg hq] at hsp
      split at hsp
      · exact absurd hsp (by simp)
      · cases hsp
        simp [length_modify]

end SetParentLemmas

section AttachStepLemmas

theorem length_attachStep (h : Heap) (p x i : Nat) :
    (attachStep h p x i).length = h.length := by
  simp [attachStep, length_modify]

theorem getN_attachStep_other {h : Heap} {p x i y : Nat}
    (hyp : y ≠ p) (hyx : y ≠ x) :
    getN (attachStep h p x i) y = getN h y := by
  simp [attachStep, getN_modify, hyp, hyx]

theorem getN_attachStep_x {h : Heap} {p x i : Nat} {dx : NodeData}
    (hpx : x ≠ p) (hx : getN h x = some dx) :
    getN (attachStep h p x i) x =
      some { dx with parent := some p, id := some i } := by
  simp [attachStep, getN_modify, hpx, hx]

theorem getN_attachStep_p {h : Heap} {p x i : Nat} {dp : NodeData}
    (hpx : p ≠ x) (hp : getN h p = some dp) :
    getN (attachStep h p x i) p =
      some { dp with children := dp.children ++ [x] } := by
  simp [attachStep, getN_modify, hpx, hp]

theorem noIncoming_attachStep {h : Heap} {p x i y : Nat}
    (hni : noIncoming h y) (hpy : p ≠ y) :
    noIncoming (attachStep h p x i) y := by
  apply noIncoming_modify
  · apply noIncoming_modify
    · apply noIncoming_modify hni
      intro d0 hd0
      simpa using hni d0 (getN_mem hd0)
    · intro d0 _
      simpa using hpy
  · intro d0 hd0
    rcases mem_modify (getN_mem hd0) with h1 | ⟨d1, hd1, rfl⟩
    · rcases mem_modify h1 with h2 | ⟨d2, hd2, rfl⟩
      · exact hni d0 h2
      · simpa using hni d2 (getN_mem hd2)
    · simpa using hpy

theorem byrefGo_cons {h : Heap} {t : TTree} {p x : Nat} {dx : NodeData}
    {xs : List Nat}
    (hx : getN h x = some dx) (hpar : dx.parent = none) (hne : x ≠ p)
    (hni : noIncoming h x) :
    byrefGo h t p (x :: xs) =
      byrefGo (attachStep h p x t.id_iterator)
        { t with id_iterator := t.id_iterator + 1 } x xs := by
  unfold byrefGo
  rw [set_parent_fresh hx hpar hne hni]
  cases xs <;> rfl

end AttachStepLemmas

section PathLemmas

/-- Characterisation of add_newpath on a three-node fresh path: the call
succeeds and the final heap is three attach steps, each consuming one
identifier. -/
theorem add_newpath_cons3_eq {h : Heap} {t : TTree} {target a b c : Nat}
    {da db dc : NodeData}
    (ha : getN h a = some da) (hb : getN h b = some db)
    (hc : getN h c = some dc)
    (haid : da.id = none) (hbid : db.id = none) (hcid : dc.id = none)
    (hapar : da.parent = none) (hbpar : db.parent = none)
    (hcpar : dc.parent = none)
    (hani : noIncoming h a) (hbni : noIncoming h b) (hcni : noIncoming h c)
    (hat : a ≠ target) (hbt : b ≠ target) (hct : c ≠ target)
    (hab : a ≠ b) (hac : a ≠ c) (hbc : b ≠ c) :
    add_newpath h t target [a, b, c] =
      ((attachStep
          (attachStep (attachStep h target a t.id_iterator) a b
            (t.id_iterator + 1))
          b c (t.id_iterator + 2),
        { t with id_iterator := t.id_iterator + 3 }), none) := by
  have hcheck : pathIdCheck h [a, b, c] = false := by
    simp [pathIdCheck, idOfRef, ha, hb, hc, haid, hbid, hcid]
  have hb1 : getN (attachStep h target a t.id_iterator) b = some db := by
    rw [getN_attachStep_other hbt (Ne.symm hab)]; exact hb
  have hbni1 : noIncoming (attachStep h target a t.id_iterator) b :=
    noIncoming_attachStep hbni (Ne.symm hbt)
  have hc2 : getN (attachStep (attachStep h target a t.id_iterator) a b
      (t.id_iterator + 1)) c = some dc := by
    rw [getN_attachStep_other (Ne.symm hac) (Ne.symm hbc),
        getN_attachStep_other hct (Ne.symm hac)]
    exact hc
  have hcni2 : noIncoming (attachStep (attachStep h target a t.id_iterator)
      a b (t.id_iterator + 1)) c :=
    noIncoming_attachStep (noIncoming_attachStep hcni (Ne.symm hct)) hac
  simp only [add_newpath, hcheck, Bool.false_eq_true, if_false,
    add_newpath_byref]
  rw [byrefGo_cons ha hapar hat hani]
  rw [byrefGo_cons hb1 hbpar (Ne.symm hab) hbni1]
  rw [byrefGo_cons hc2 hcpar (Ne.symm hbc) hcni2]
  rfl

end PathLemmas

/-- C6: for every tree, every target node and every list of three fresh
identifier-free nodes [a, b, c], add_newpath(target, [a, b, c]) succeeds
and makes a a child of target, b a child of a and c a child of b, giving
a, b, c the three consecutive fresh identifiers
id_iterator, id_iterator + 1, id_iterator + 2 in that order. -/
theorem add_newpath_path_chaining {h : Heap} {t : TTree} {target a b c : Nat}
    {dt da db dc : NodeData}
    (ht : getN h target = some dt)
    (ha : getN h a = some da) (hb : getN h b = some db)
    (hc : getN h c = some dc)
    (haid : da.id = none) (hbid : db.id = none) (hcid : dc.id = none)
    (hapar : da.parent = none) (hbpar : db.parent = none)
    (hcpar : dc.parent = none)
    (hani : noIncoming h a) (hbni : noIncoming h b) (hcni : noIncoming h c)
    (hat : a ≠ target) (hbt : b ≠ target) (hct : c ≠ target)
    (hab : a ≠ b) (hac : a ≠ c) (hbc : b ≠ c) :
    let q := add_newpath h t target [a, b, c]
    q.2 = none ∧
    getN q.1.1 target = some { dt with children := dt.children ++ [a] } ∧
    getN q.1.1 a = some { da with parent := some target, children := da.children ++ [b], id := some t.id_iterator } ∧
    getN q.1.1 b = some { db with parent := some a, children := db.children ++ [c], id := some (t.id_iterator + 1) } ∧
    getN q.1.1 c = some { dc with parent := some b, id := some (t.id_iterator + 2) } ∧
    q.1.2.id_iterator = t.id_iterator + 3 := by
  have hb1 : getN (attachStep h target a t.id_iterator) b = some db := by
    rw [getN_attachStep_other hbt (Ne.symm hab)]; exact hb
  have hc2 : getN (attachStep (attachStep h target a t.id_iterator) a b
      (t.id_iterator + 1)) c = some dc := by
    rw [getN_attachStep_other (Ne.symm hac) (Ne.symm hbc),
        getN_attachStep_other hct (Ne.symm hac)]
    exact hc
  rw [add_newpath_cons3_eq ha hb hc haid hbid hcid hapar hbpar hcpar
    hani hbni hcni hat hbt hct hab hac hbc]
  refine ⟨rfl, ?_, ?_, ?_, ?_, rfl⟩
  · rw [getN_attachStep_other (Ne.symm hbt) (Ne.symm hct),
        getN_attachStep_other (Ne.symm hat) (Ne.symm hbt),
        getN_attachStep_p (Ne.symm hat) ht]
  · rw [getN_attachStep_other hab hac,
        getN_attachStep_p hab (getN_attachStep_x hat ha)]
  · rw [getN_attachStep_p hbc (getN_attachStep_x (Ne.symm hab) hb1)]
  · rw [getN_attachStep_x (Ne.symm hbc) hc2]

/-- C7: add_node attaches a non-null fresh node under a member target —
parent set to the target, node appended to the members list, next
identifier assigned, counter advanced — and is a silent no-op (result
state unchanged, no error) when the target is not a member or either
argument is null. -/
theorem add_node_attach_and_noop {h : Heap} {t : TTree} :
    (∀ tg nn dt dn, getN h tg = some dt → getN h nn = some dn →
      tg ∈ t.nodes → dn.parent = none → nn ≠ tg → noIncoming h nn →
      (add_node h t (some tg) (some nn)).2 = none ∧
      getN (add_node h t (some tg) (some nn)).1.1 nn = some { dn with parent := some tg, id := some t.id_iterator } ∧
      getN (add_node h t (some tg) (some nn)).1.1 tg = some { dt with children := dt.children ++ [nn] } ∧
      (add_node h t (some tg) (some nn)).1.2.nodes = t.nodes ++ [nn] ∧
      (add_node h t (some tg) (some nn)).1.2.id_iterator = t.id_iterator + 1) ∧
    (∀ tg nn, tg ∉ t.nodes → add_node h t (some tg) (some nn) = ((h, t), none)) ∧
    (∀ nn, add_node h t none nn = ((h, t), none)) ∧
    (∀ tg, add_node h t tg none = ((h, t), none)) := by
  refine ⟨?_, ?_, ?_, ?_⟩
  · intro tg nn dt dn htg hnn hmem hpar hne hni
    have heq : add_node h t (some tg) (some nn) =
        ((attachStep h tg nn t.id_iterator,
          { t with id_iterator := t.id_iterator + 1,
                   nodes := t.nodes ++ [nn] }), none) := by
      simp only [add_node]
      rw [if_pos hmem, set_parent_fresh hnn hpar hne hni]
      rfl
    rw [heq]
    exact ⟨rfl, getN_attachStep_x hne hnn,
      getN_attachStep_p (Ne.symm hne) htg, rfl, rfl⟩
  · intro tg nn hmem
    simp only [add_node]
    rw [if_neg hmem]
  · intro nn
    rfl
  · intro tg
    cases tg <;> rfl

/-- Witness for C7: a successful attach on a two-node heap together with
the three no-op cases (non-member target, null target, null node). -/
theorem add_node_attach_and_noop_witness :
    let h0 : Heap := [⟨"root", none, [], some 0⟩, ⟨"n", none, [], none⟩]
    let t0 : TTree := ⟨"t", 0, 1, [0]⟩
    ((add_node h0 t0 (some 0) (some 1)).2 = none ∧
     getN (add_node h0 t0 (some 0) (some 1)).1.1 1 = some ⟨"n", some 0, [], some 1⟩ ∧
     getN (add_node h0 t0 (some 0) (some 1)).1.1 0 = some ⟨"root", none, [1], some 0⟩ ∧
     (add_node h0 t0 (some 0) (some 1)).1.2.nodes = [0, 1] ∧
     (add_node h0 t0 (some 0) (some 1)).1.2.id_iterator = 2) ∧
    add_node h0 t0 (some 7) (some 1) = ((h0, t0), none) ∧
    add_node h0 t0 none (some 1) = ((h0, t0), none) ∧
    add_node h0 t0 (some 0) none = ((h0, t0), none) :=
  ⟨add_node_attach_and_noop.1 0 1 ⟨"root", none, [], some 0⟩
      ⟨"n", none, [], none⟩ rfl rfl (by decide) rfl (by decide) (by decide),
   add_node_attach_and_noop.2.1 7 1 (by decide),
   add_node_attach_and_noop.2.2.1 (some 1),
   add_node_attach_and_noop.2.2.2 (some 0)⟩

/-- C9: add_newpath performs no membership check on its target: for any
node reference used as target — the hypotheses require only that the
reference denotes a node, not that it belongs to the tree — the call
succeeds, chains the fresh path node under the target and consumes a
fresh identifier from this tree's counter. -/
theorem add_newpath_ignores_target_membership {h : Heap} {t : TTree}
    {target a : Nat} {dt da : NodeData}
    (ht : getN h target = some dt) (ha : getN h a = some da)
    (haid : da.id = none) (hapar : da.parent = none)
    (hani : noIncoming h a) (hat : a ≠ target) :
    let q := add_newpath h t target [a]
    q.2 = none ∧
    getN q.1.1 target = some { dt with children := dt.children ++ [a] } ∧
    getN q.1.1 a = some { da with parent := some target, id := some t.id_iterator } ∧
    q.1.2.id_iterator = t.id_iterator + 1 := by
  have hcheck : pathIdCheck h [a] = false := by
    simp [pathIdCheck, idOfRef, ha, haid]
  simp only [add_newpath, hcheck, Bool.false_eq_true, if_false,
    add_newpath_byref]
  rw [byrefGo_cons ha hapar hat hani]
  exact ⟨rfl, getN_attachStep_p (Ne.symm hat) ht,
    getN_attachStep_x hat ha, rfl⟩

/-- Witness for C9: the target (reference 1) is a detached node — it is
not in the tree's members list and not reachable from the root — yet the
path is chained under it and the tree's counter is consumed. -/
theorem add_newpath_ignores_target_membership_witness :
    let h0 : Heap := [⟨"root", none, [], some 0⟩, ⟨"det", none, [], none⟩,
                      ⟨"a", none, [], none⟩]
    let t0 : TTree := ⟨"t", 0, 1, [0]⟩
    let q := add_newpath h0 t0 1 [2]
    (1 ∉ t0.nodes) ∧ 1 ∉ postorder h0 h0.length t0.root ∧
    q.2 = none ∧
    getN q.1.1 1 = some ⟨"det", none, [2], none⟩ ∧
    getN q.1.1 2 = some ⟨"a", some 1, [], some 1⟩ ∧
    q.1.2.id_iterator = 2 :=
  ⟨by decide, by decide,
   (@add_newpath_ignores_target_membership
      [⟨"root", none, [], some 0⟩, ⟨"det", none, [], none⟩,
       ⟨"a", none, [], none⟩]
      ⟨"t", 0, 1, [0]⟩ 1 2 ⟨"det", none, [], none⟩ ⟨"a", none, [], none⟩
      rfl rfl rfl rfl (by decide) (by decide)).1,
   (@add_newpath_ignores_target_membership
      [⟨"root", none, [], some 0⟩, ⟨"det", none, [], none⟩,
       ⟨"a", none, [], none⟩]
      ⟨"t", 0, 1, [0]⟩ 1 2 ⟨"det", none, [], none⟩ ⟨"a", none, [], none⟩
      rfl rfl rfl rfl (by decide) (by decide)).2.1,
   (@add_newpath_ignores_target_membership
      [⟨"root", none, [], some 0⟩, ⟨"det", none, [], none⟩,
       ⟨"a", none, [], none⟩]
      ⟨"t", 0, 1, [0]⟩ 1 2 ⟨"det", none, [], none⟩ ⟨"a", none, [], none⟩
      rfl rfl rfl rfl (by decide) (by decide)).2.2.1,
   (@add_newpath_ignores_target_membership
      [⟨"root", none, [], some 0⟩, ⟨"det", none, [], none⟩,
       ⟨"a", none, [], none⟩]
      ⟨"t", 0, 1, [0]⟩ 1 2 ⟨"det", none, [], none⟩ ⟨"a", none, [], none⟩
      rfl rfl rfl rfl (by decide) (by decide)).2.2.2⟩

/-- Witness for C6 at a concrete tree: root with identifier 0, three
fresh nodes chained beneath it receiving identifiers 1, 2, 3. -/
theorem add_newpath_path_chaining_witness :
    let h0 : Heap := [⟨"root", none, [], some 0⟩, ⟨"a", none, [], none⟩,
                      ⟨"b", none, [], none⟩, ⟨"c", none, [], none⟩]
    let t0 : TTree := ⟨"t", 0, 1, [0]⟩
    let q := add_newpath h0 t0 0 [1, 2, 3]
    q.2 = none ∧
    getN q.1.1 0 = some ⟨"root", none, [1], some 0⟩ ∧
    getN q.1.1 1 = some ⟨"a", some 0, [2], some 1⟩ ∧
    getN q.1.1 2 = some ⟨"b", some 1, [3], some 2⟩ ∧
    getN q.1.1 3 = some ⟨"c", some 2, [], some 3⟩ ∧
    q.1.2.id_iterator = 4 :=
  @add_newpath_path_chaining
    [⟨"root", none, [], some 0⟩, ⟨"a", none, [], none⟩,
     ⟨"b", none, [], none⟩, ⟨"c", none, [], none⟩]
    ⟨"t", 0, 1, [0]⟩ 0 1 2 3
    ⟨"root", none, [], some 0⟩ ⟨"a", none, [], none⟩
    ⟨"b", none, [], none⟩ ⟨"c", none, [], none⟩
    rfl rfl rfl rfl rfl rfl rfl rfl rfl rfl
    (by decide) (by decide) (by decide) (by decide) (by decide) (by decide)
    (by decide) (by decide) (by decide)

/-- C1: add_newpath_byid is documented (inline comment in the source) to
need a fresh copy of the path for every resolved target, yet it passes
the very same node references to each target.  On a tree state whose
identifier search yields two matches (references 1 and 2, both carrying
identifier 5, a situation the design is required to tolerate), attaching
the one-node path [3] leaves the first match childless: the path node is
relocated to the second match instead of each match keeping a copy, and
the counter is advanced once per match for the single path node. -/
theorem add_newpath_byid_relocates_path :
    byidState.2 = none ∧
    getN byidState.1.1 1 = some ⟨"a", some 0, [], some 5⟩ ∧
    getN byidState.1.1 2 = some ⟨"b", some 0, [3], some 5⟩ ∧
    getN byidState.1.1 3 = some ⟨"p", some 2, [], some 7⟩ ∧
    byidState.1.2.id_iterator = 8 := by
  decide

/-- C2: membership closure fails.  add_newpath attaches a node under the
root (it becomes reachable via children links and appears in the
post-order traversal) but never appends it to the tree's `__nodes`
membership list, so `members` is a strict subset of the reachable set;
consequently a later add_node targeting that node is a silent no-op. -/
theorem add_newpath_breaks_membership_closure :
    closureState.2 = none ∧
    1 ∈ postorder closureState.1.1 closureState.1.1.length closureState.1.2.root ∧
    getN closureState.1.1 1 = some ⟨"a", some 0, [], some 1⟩ ∧
    closureState.1.2.nodes = [0] ∧ 1 ∉ closureState.1.2.nodes ∧
    add_node closureState.1.1 closureState.1.2 (some 1) (some 2)
      = ((closureState.1.1, closureState.1.2), none) := by
  decide

/-- C3: the precondition check of add_newpath is the Python truthiness
test `if node.id:`, so a path element whose identifier is 0 — here the
root of a first tree, passed as the path of an add_newpath call on a
second tree — raises no error at all: the call succeeds, re-parents the
identifier-0 node under the second tree's root and overwrites its
identifier, where the claim demands a precondition error and an unchanged
tree. -/
theorem add_newpath_accepts_id_zero_member :
    idOfRef zeroIdSecond.1 0 = some 0 ∧
    zeroIdState.2 = none ∧
    getN zeroIdState.1.1 0 = some ⟨"r1", some 1, [], some 1⟩ ∧
    getN zeroIdState.1.1 1 = some ⟨"r2", none, [0], some 0⟩ ∧
    zeroIdState.1.2.id_iterator = 2 := by
  decide

/-- C4: add_nodes is an empty `pass` stub, so it attaches nothing — the
root keeps zero children and the counter does not move — while the
repository's own test (addnodes_test.py, test_add_nodes) asserts that the
same call leaves the root with three children, and three sequential
add_node calls indeed produce the three children with consecutive
identifiers 1, 2, 3. -/
theorem add_nodes_is_a_stub :
    stubState = ((stubStart.1, stubStart.2), none) ∧
    getN stubState.1.1 0 = some ⟨"root", none, [], some 0⟩ ∧
    getN stubSeq3.1.1 0 = some ⟨"root", none, [1, 2, 3], some 0⟩ ∧
    idOfRef stubSeq3.1.1 1 = some 1 ∧
    idOfRef stubSeq3.1.1 2 = some 2 ∧
    idOfRef stubSeq3.1.1 3 = some 3 ∧
    stubSeq3.1.2.id_iterator = 4 := by
  decide

/-- C10: add_node performs no already-a-member check: when the new node
is itself a member of the tree (with an assigned identifier and a current
parent), the call still succeeds — it re-parents the node under the
target, detaching it from its old parent's children, overwrites its
identifier with the fresh counter value (distinct from the old one), and
appends a second reference to it to the members list. -/
theorem add_node_reattaches_member {h : Heap} {t : TTree} {tg nn q k : Nat}
    {dt dn dq : NodeData}
    (htg : getN h tg = some dt) (hnn : getN h nn = some dn)
    (hq : getN h q = some dq)
    (htgm : tg ∈ t.nodes) (hnnm : nn ∈ t.nodes)
    (hpar : dn.parent = some q) (hid : dn.id = some k)
    (hk : k < t.id_iterator)
    (hqtg : q ≠ tg) (hntg : nn ≠ tg) (hnq : nn ≠ q)
    (hloop : nn ∉ iterPathReverse h h.length tg) :
    let s := add_node h t (some tg) (some nn)
    s.2 = none ∧
    getN s.1.1 nn = some { dn with parent := some tg, id := some t.id_iterator } ∧
    getN s.1.1 tg = some { dt with children := dt.children ++ [nn] } ∧
    getN s.1.1 q = some { dq with children := dq.children.filter (fun c => c ≠ nn) } ∧
    s.1.2.nodes = t.nodes ++ [nn] ∧
    s.1.2.nodes.count nn = t.nodes.count nn + 1 ∧
    0 < t.nodes.count nn ∧
    s.1.2.id_iterator = t.id_iterator + 1 ∧
    (some t.id_iterator : Option Nat) ≠ dn.id := by
  have heq : add_node h t (some tg) (some nn) =
      ((modifyNode
          (modifyNode
            (modifyNode
              (modifyNode h q
                (fun d => { d with children := d.children.filter (fun c => c ≠ nn) }))
              tg (fun d => { d with children := d.children ++ [nn] }))
            nn (fun d => { d with parent := some tg }))
          nn (fun d => { d with id := some t.id_iterator }),
        { t with id_iterator := t.id_iterator + 1,
                 nodes := t.nodes ++ [nn] }), none) := by
    simp only [add_node]
    rw [if_pos htgm, set_parent_move hnn hpar hqtg hloop]
    rfl
  rw [heq]
  refine ⟨rfl, ?_, ?_, ?_, rfl, ?_, ?_, rfl, ?_⟩
  · simp [getN_modify, hnq, hntg, hnn]
  · simp [getN_modify, Ne.symm hntg, Ne.symm hqtg, htg]
  · simp [getN_modify, Ne.symm hnq, hqtg, hq]
  · simp [List.count_append]
  · exact List.count_pos_iff.mpr hnnm
  · rw [hid]
    simp only [ne_eq, Option.some.injEq]
    omega

/-- Witness for C10: node 2 (identifier 2, parent 1) is re-attached
under the root of its own tree: it moves, its identifier becomes 3, and
the members list now references it twice. -/
theorem add_node_reattaches_member_witness :
    let h0 : Heap := [⟨"root", none, [1], some 0⟩, ⟨"m", some 0, [2], some 1⟩,
                      ⟨"n", some 1, [], some 2⟩]
    let t0 : TTree := ⟨"t", 0, 3, [0, 1, 2]⟩
    let s := add_node h0 t0 (some 0) (some 2)
    s.2 = none ∧
    getN s.1.1 2 = some ⟨"n", some 0, [], some 3⟩ ∧
    getN s.1.1 0 = some ⟨"root", none, [1, 2], some 0⟩ ∧
    getN s.1.1 1 = some ⟨"m", some 0, [], some 1⟩ ∧
    s.1.2.nodes = [0, 1, 2, 2] ∧
    s.1.2.nodes.count 2 = [0, 1, 2].count 2 + 1 ∧
    0 < [0, 1, 2].count 2 ∧
    s.1.2.id_iterator = 4 ∧
    (some 3 : Option Nat) ≠ some 2 :=
  @add_node_reattaches_member
    [⟨"root", none, [1], some 0⟩, ⟨"m", some 0, [2], some 1⟩,
     ⟨"n", some 1, [], some 2⟩]
    ⟨"t", 0, 3, [0, 1, 2]⟩ 0 2 1 2
    ⟨"root", none, [1], some 0⟩ ⟨"n", some 1, [], some 2⟩
    ⟨"m", some 0, [2], some 1⟩
    rfl rfl rfl (by decide) (by decide) rfl rfl (by decide)
    (by decide) (by decide) (by decide) (by decide)

section InvariantLemmas

theorem getN_isSome_of_lt {h : Heap} {r : Nat} (hr : r < h.length) :
    ∃ d, getN h r = some d := by
  induction h generalizing r with
  | nil => simp at hr
  | cons d h ih =>
    cases r with
    | zero => exact ⟨d, rfl⟩
    | succ r => exact ih (Nat.lt_of_succ_lt_succ hr)

theorem idOfRef_modify_other {h : Heap} {r s : Nat} {f : NodeData → NodeData}
    (hne : s ≠ r) : idOfRef (modifyNode h r f) s = idOfRef h s := by
  simp [idOfRef, getN_modify, hne]

theorem IdInv_congr {h h' : Heap} {t : TTree}
    (hid : ∀ s, idOfRef h' s = idOfRef h s) (hI : IdInv h t) : IdInv h' t := by
  obtain ⟨hAll, hUniq⟩ := hI
  refine ⟨fun r hr => ?_, fun r1 hr1 r2 hr2 hne => ?_⟩
  · rw [hid]; exact hAll r hr
  · rw [hid, hid]; exact hUniq r1 hr1 r2 hr2 hne

theorem IdInv_set_id {h : Heap} {t : TTree} (r : Nat) (hI : IdInv h t) :
    IdInv (modifyNode h r (fun d => { d with id := some t.id_iterator }))
      { t with id_iterator := t.id_iterator + 1 } := by
  obtain ⟨hAll, hUniq⟩ := hI
  have hOther : ∀ m, m ≠ r →
      idOfRef (modifyNode h r (fun d => { d with id := some t.id_iterator })) m
        = idOfRef h m := fun m hm => idOfRef_modify_other hm
  have hSelf : r ∈ t.nodes →
      idOfRef (modifyNode h r (fun d => { d with id := some t.id_iterator })) r
        = some t.id_iterator := by
    intro hr
    obtain ⟨k, hk, _⟩ := hAll r hr
    obtain ⟨d, hd, _⟩ := Option.bind_eq_some.mp hk
    simp [idOfRef, getN_modify, hd]
  refine ⟨fun m hm => ?_, fun r1 hr1 r2 hr2 hne => ?_⟩
  · by_cases hmr : m = r
    · subst hmr
      exact ⟨t.id_iterator, hSelf hm, by simp⟩
    · obtain ⟨k, hk, hlt⟩ := hAll m hm
      exact ⟨k, by rw [hOther m hmr]; exact hk, by simp; omega⟩
  · by_cases h1r : r1 = r
    · subst h1r
      have h2r : r2 ≠ r1 := Ne.symm hne
      obtain ⟨k2, hk2, hlt2⟩ := hAll r2 hr2
      rw [hSelf hr1, hOther r2 h2r, hk2]
      simp
      omega
    · by_cases h2r : r2 = r
      · subst h2r
        obtain ⟨k1, hk1, hlt1⟩ := hAll r1 hr1
        rw [hSelf hr2, hOther r1 h1r, hk1]
        simp
        omega
      · rw [hOther r1 h1r, hOther r2 h2r]
        exact hUniq r1 hr1 r2 hr2 hne

theorem IdInv_insert {h : Heap} {t : TTree} {nn : Nat}
    (hI : IdInv h t) (hv : nn < h.length) :
    IdInv (modifyNode h nn (fun d => { d with id := some t.id_iterator }))
      { t with id_iterator := t.id_iterator + 1, nodes := t.nodes ++ [nn] } := by
  obtain ⟨hAll, hUniq⟩ := hI
  obtain ⟨dn, hdn⟩ := getN_isSome_of_lt hv
  have hSelf :
      idOfRef (modifyNode h nn (fun d => { d with id := some t.id_iterator })) nn
        = some t.id_iterator := by
    simp [idOfRef, getN_modify, hdn]
  have hOld : ∀ m, m ∈ t.nodes ++ [nn] → m ≠ nn →
      ∃ k, idOfRef (modifyNode h nn
          (fun d => { d with id := some t.id_iterator })) m = some k ∧
        k < t.id_iterator := by
    intro m hm hmn
    have hmem : m ∈ t.nodes := by
      rcases List.mem_append.mp hm with h1 | h1
      · exact h1
      · exact absurd (by simpa using h1) hmn
    obtain ⟨k, hk, hlt⟩ := hAll m hmem
    exact ⟨k, by rw [idOfRef_modify_other hmn]; exact hk, hlt⟩
  refine ⟨fun m hm => ?_, fun r1 hr1 r2 hr2 hne => ?_⟩
  · by_cases hmn : m = nn
    · subst hmn
      exact ⟨t.id_iterator, hSelf, by simp⟩
    · obtain ⟨k, hk, hlt⟩ := hOld m hm hmn
      exact ⟨k, hk, by simp; omega⟩
  · by_cases h1n : r1 = nn
    · subst h1n
      have h2n : r2 ≠ r1 := Ne.symm hne
      obtain ⟨k2, hk2, hlt2⟩ := hOld r2 hr2 h2n
      rw [hSelf, hk2]
      simp
      omega
    · by_cases h2n : r2 = nn
      · subst h2n
        obtain ⟨k1, hk1, hlt1⟩ := hOld r1 hr1 h1n
        rw [hSelf, hk1]
        simp
        omega
      · obtain ⟨k1, hk1, hlt1⟩ := hOld r1 hr1 h1n
        obtain ⟨k2, hk2, hlt2⟩ := hOld r2 hr2 h2n
        rw [hk1, hk2]
        have hmem1 : r1 ∈ t.nodes := by
          rcases List.mem_append.mp hr1 with h1 | h1
          · exact h1
          · exact absurd (by simpa using h1) h1n
        have hmem2 : r2 ∈ t.nodes := by
          rcases List.mem_append.mp hr2 with h1 | h1
          · exact h1
          · exact absurd (by simpa using h1) h2n
        have := hUniq r1 hmem1 r2 hmem2 hne
        obtain ⟨k1x, hk1x, _⟩ := hAll r1 hmem1
        obtain ⟨k2x, hk2x, _⟩ := hAll r2 hmem2
        rw [idOfRef_modify_other h1n] at hk1
        rw [idOfRef_modify_other h2n] at hk2
        rw [hk1, hk2] at this
        exact this

end InvariantLemmas

section OpPreservation

theorem IdInv_add_node {h : Heap} {t : TTree} {tg nn : Option Nat}
    (hI : IdInv h t)
    (hv : ∀ r, nn = some r → r < h.length) :
    IdInv (add_node h t tg nn).1.1 (add_node h t tg nn).1.2 := by
  match tg, nn with
  | none, _ => exact hI
  | some tg, none => exact hI
  | some tg, some nn =>
    simp only [add_node]
    by_cases hmem : tg ∈ t.nodes
    · rw [if_pos hmem]
      cases hsp : set_parent h nn tg with
      | none => exact hI
      | some h1 =>
        have hI1 : IdInv h1 t := IdInv_congr (set_parent_ids hsp) hI
        have hlen : nn < h1.length := by
          rw [set_parent_length hsp]
          exact hv nn rfl
        simpa [TTree.set_id] using IdInv_insert hI1 hlen
    · rw [if_neg hmem]
      exact hI

theorem IdInv_byrefGo {h : Heap} {t : TTree} {prev : Nat} {path : List Nat}
    (hI : IdInv h t) :
    IdInv (byrefGo h t prev path).1.1 (byrefGo h t prev path).1.2 := by
  induction path generalizing h t prev with
  | nil => exact hI
  | cons x xs ih =>
    simp only [byrefGo]
    cases hsp : set_parent h x prev with
    | none => exact hI
    | some h1 =>
      have hI1 : IdInv h1 t := IdInv_congr (set_parent_ids hsp) hI
      exact ih (by simpa [TTree.set_id] using IdInv_set_id x hI1)

theorem IdInv_add_newpath_byref {h : Heap} {t : TTree} {target : Nat}
    {path : List Nat} (hI : IdInv h t) :
    IdInv (add_newpath_byref h t target path).1.1
      (add_newpath_byref h t target path).1.2 := by
  cases path with
  | nil => exact hI
  | cons x xs => exact IdInv_byrefGo hI

theorem IdInv_add_newpath {h : Heap} {t : TTree} {target : Nat}
    {path : List Nat} (hI : IdInv h t) :
    IdInv (add_newpath h t target path).1.1
      (add_newpath h t target path).1.2 := by
  unfold add_newpath
  split
  · exact hI
  · exact IdInv_add_newpath_byref hI

theorem IdInv_byidGo {h : Heap} {t : TTree} {targets path : List Nat}
    (hI : IdInv h t) :
    IdInv (byidGo h t targets path).1.1 (byidGo h t targets path).1.2 := by
  induction targets generalizing h t with
  | nil => exact hI
  | cons tg tgs ih =>
    simp only [byidGo]
    cases hb : add_newpath_byref h t tg path with
    | mk s e =>
      have hIs : IdInv s.1 s.2 := by
        have := @IdInv_add_newpath_byref h t tg path hI
        rwa [hb] at this
      cases e with
      | none => exact ih hIs
      | some e => exact hIs

theorem IdInv_add_newpath_byid {h : Heap} {t : TTree} {tid : Nat}
    {path : List Nat} (hI : IdInv h t) :
    IdInv (add_newpath_byid h t tid path).1.1
      (add_newpath_byid h t tid path).1.2 := by
  unfold add_newpath_byid
  split
  · exact hI
  · exact IdInv_byidGo hI

theorem set_id_length {h : Heap} {t : TTree} {r : Nat} :
    (TTree.set_id h t r).1.length = h.length := by
  simp [TTree.set_id, length_modify]

theorem add_node_length {h : Heap} {t : TTree} {tg nn : Option Nat} :
    (add_node h t tg nn).1.1.length = h.length := by
  match tg, nn with
  | none, _ => rfl
  | some tg, none => rfl
  | some tg, some nn =>
    simp only [add_node]
    by_cases hmem : tg ∈ t.nodes
    · rw [if_pos hmem]
      cases hsp : set_parent h nn tg with
      | none => rfl
      | some h1 =>
        simpa [TTree.set_id, length_modify] using set_parent_length hsp
    · rw [if_neg hmem]

theorem byrefGo_length {h : Heap} {t : TTree} {prev : Nat} {path : List Nat} :
    (byrefGo h t prev path).1.1.length = h.length := by
  induction path generalizing h t prev with
  | nil => rfl
  | cons x xs ih =>
    simp only [byrefGo]
    cases hsp : set_parent h x prev with
    | none => rfl
    | some h1 =>
      rw [ih]
      simpa [TTree.set_id, length_modify] using set_parent_length hsp

theorem add_newpath_byref_length {h : Heap} {t : TTree} {target : Nat}
    {path : List Nat} :
    (add_newpath_byref h t target path).1.1.length = h.length := by
  cases path with
  | nil => rfl
  | cons x xs => exact byrefGo_length

theorem add_newpath_length {h : Heap} {t : TTree} {target : Nat}
    {path : List Nat} :
    (add_newpath h t target path).1.1.length = h.length := by
  unfold add_newpath
  split
  · rfl
  · exact add_newpath_byref_length

theorem byidGo_length {h : Heap} {t : TTree} {targets path : List Nat} :
    (byidGo h t targets path).1.1.length = h.length := by
  induction targets generalizing h t with
  | nil => rfl
  | cons tg tgs ih =>
    simp only [byidGo]
    cases hb : add_newpath_byref h t tg path with
    | mk s e =>
      have hlen : s.1.length = h.length := by
        have := @add_newpath_byref_length h t tg path
        rwa [hb] at this
      cases e with
      | none => rw [ih, hlen]
      | some e => exact hlen

theorem add_newpath_byid_length {h : Heap} {t : TTree} {tid : Nat}
    {path : List Nat} :
    (add_newpath_byid h t tid path).1.1.length = h.length := by
  unfold add_newpath_byid
  split
  · rfl
  · exact byidGo_length

theorem step_length {s : Heap × TTree} {op : Op} :
    (step s op).1.length = s.1.length := by
  cases op with
  | addNode tg nn => exact add_node_length
  | addNodes tg ns => rfl
  | addPath tg p => exact add_newpath_length
  | addPathById tid p => exact add_newpath_byid_length

theorem IdInv_step {s : Heap × TTree} {op : Op}
    (hI : IdInv s.1 s.2) (hv : opValid s.1.length op = true) :
    IdInv (step s op).1 (step s op).2 := by
  cases op with
  | addNode tg nn =>
    refine IdInv_add_node hI ?_
    intro r hr
    subst hr
    simpa [opValid] using hv
  | addNodes tg ns => exact hI
  | addPath tg p => exact IdInv_add_newpath hI
  | addPathById tid p => exact IdInv_add_newpath_byid hI

theorem IdInv_run {s : Heap × TTree} {ops : List Op}
    (hI : IdInv s.1 s.2)
    (hv : ∀ op ∈ ops, opValid s.1.length op = true) :
    IdInv (run s ops).1 (run s ops).2 := by
  induction ops generalizing s with
  | nil => exact hI
  | cons op ops ih =>
    simp only [run]
    refine ih (IdInv_step hI (hv op (by simp))) ?_
    intro op2 hop2
    rw [step_length]
    exact hv op2 (by simp [hop2])

theorem IdInv_mkTTree {h : Heap} {nm : String} {root : Nat}
    (hroot : root < h.length) :
    IdInv (mkTTree h nm root).1 (mkTTree h nm root).2 := by
  obtain ⟨d, hd⟩ := getN_isSome_of_lt hroot
  refine ⟨fun m hm => ?_, fun r1 hr1 r2 hr2 hne => ?_⟩
  · have hmr : m = root := by simpa [mkTTree] using hm
    subst hmr
    exact ⟨0, by simp [mkTTree, idOfRef, getN_modify, hd], Nat.zero_lt_one⟩
  · have h1 : r1 = root := by simpa [mkTTree] using hr1
    have h2 : r2 = root := by simpa [mkTTree] using hr2
    subst h1; subst h2
    exact absurd rfl hne

end OpPreservation

/-- Counterexample to C8 as stated: an identifier, once assigned, can
change.  Attaching the same node twice with add_node (the second call is
accepted because add_node performs no already-a-member check) overwrites
its identifier 1 with the fresh identifier 2 and leaves a duplicate
reference in the members list. -/
theorem add_node_changes_assigned_identifier :
    let h0 : Heap := [⟨"root", none, [], none⟩, ⟨"n", none, [], none⟩]
    let p := mkTTree h0 "t" 0
    let s1 := add_node p.1 p.2 (some 0) (some 1)
    let s2 := add_node s1.1.1 s1.1.2 (some 0) (some 1)
    s1.2 = none ∧ s2.2 = none ∧
    idOfRef s1.1.1 1 = some 1 ∧ idOfRef s2.1.1 1 = some 2 ∧
    s2.1.2.nodes = [0, 1, 1] := by
  decide

/-- C8 (amended): after every sequence of mutation operations on a tree
built by TTree.__init__, every member's identifier is defined, unique
among distinct member nodes and lies in [0, nextIdentifier); the counter
starts at 1 and the root consumes identifier 0.  (The claim's clause that
an assigned identifier never changes is dropped: re-inserting a member
overwrites its identifier, see the counterexample.) -/
theorem tree_identifier_invariant (h0 : Heap) (nm : String) (root : Nat)
    (ops : List Op) (hroot : root < h0.length)
    (hops : ∀ op ∈ ops, opValid h0.length op = true) :
    let s0 := mkTTree h0 nm root
    let s := run s0 ops
    s0.2.id_iterator = 1 ∧ idOfRef s0.1 root = some 0 ∧ IdInv s.1 s.2 := by
  obtain ⟨d, hd⟩ := getN_isSome_of_lt hroot
  refine ⟨rfl, by simp [mkTTree, idOfRef, getN_modify, hd], ?_⟩
  refine IdInv_run (IdInv_mkTTree hroot) ?_
  intro op hop
  have hlen : (mkTTree h0 nm root).1.length = h0.length := by
    simp [mkTTree, length_modify]
  rw [hlen]
  exact hops op hop

/-- Witness for the amended C8 on a concrete run: one attach under the
root. -/
theorem tree_identifier_invariant_witness :
    let s0 := mkTTree [(⟨"root", none, [], none⟩ : NodeData),
                       ⟨"n", none, [], none⟩] "t" 0
    let s := run s0 [Op.addNode (some 0) (some 1)]
    s0.2.id_iterator = 1 ∧ idOfRef s0.1 0 = some 0 ∧ IdInv s.1 s.2 :=
  tree_identifier_invariant
    [⟨"root", none, [], none⟩, ⟨"n", none, [], none⟩] "t" 0
    [Op.addNode (some 0) (some 1)] (by decide) (by decide)

section PersistenceLemmas

theorem getN_append_lt {h1 h2 : Heap} {r : Nat} (hr : r < h1.length) :
    getN (h1 ++ h2) r = getN h1 r := by
  induction h1 generalizing r with
  | nil => simp at hr
  | cons d h ih =>
    cases r with
    | zero => rfl
    | succ r => exact ih (Nat.lt_of_succ_lt_succ hr)

theorem getN_append_self {h : Heap} {d : NodeData} :
    getN (h ++ [d]) h.length = some d := by
  induction h with
  | nil => rfl
  | cons e h ih => simpa [getN] using ih

theorem length_patchParents {refs : List Nat} {h : Heap} {r : Nat} :
    (patchParents h refs r).length = h.length := by
  induction refs generalizing h with
  | nil => rfl
  | cons c cs ih =>
    show (patchParents (modifyNode h c _) cs r).length = h.length
    rw [ih, length_modify]

theorem getN_patchParents_not_mem {refs : List Nat} {h : Heap} {r i : Nat}
    (hi : i ∉ refs) : getN (patchParents h refs r) i = getN h i := by
  induction refs generalizing h with
  | nil => rfl
  | cons c cs ih =>
    have hic : i ≠ c := fun he => hi (he ▸ List.mem_cons_self c cs)
    have hics : i ∉ cs := fun he => hi (List.mem_cons_of_mem c he)
    show getN (patchParents (modifyNode h c _) cs r) i = getN h i
    rw [ih hics, getN_modify, if_neg hic]

theorem shape_patchParents {refs : List Nat} {h : Heap} {r : Nat} (i : Nat) :
    (getN (patchParents h refs r) i).map nodeShape = (getN h i).map nodeShape := by
  induction refs generalizing h with
  | nil => rfl
  | cons c cs ih =>
    show (getN (patchParents (modifyNode h c _) cs r) i).map nodeShape
      = (getN h i).map nodeShape
    rw [ih, getN_modify]
    by_cases hic : i = c
    · rw [if_pos hic]
      subst hic
      cases getN h i <;> simp [nodeShape]
    · rw [if_neg hic]

theorem buildList_spec {cs : List PTree}
    (IH : ∀ c ∈ cs, ∀ h : Heap, BuildTreeOK c h) :
    ∀ h : Heap, BuildListOK cs h := by
  induction cs with
  | nil =>
    intro h
    exact ⟨le_rfl, fun i _ => rfl, rfl, by simp [buildList], fun h2 fuel _ _ => rfl⟩
  | cons c cs ih =>
    intro h
    obtain ⟨bt1, bt2, bt3, bt4⟩ := IH c (List.mem_cons_self c cs) h
    obtain ⟨bl1, bl2, bl3, bl4, bl5⟩ :=
      ih (fun c2 hc2 => IH c2 (List.mem_cons_of_mem c hc2)) (buildTree c h).1
    have heq : buildList (c :: cs) h =
        ((buildList cs (buildTree c h).1).1,
         (buildTree c h).2 :: (buildList cs (buildTree c h).1).2) := rfl
    unfold BuildListOK
    rw [heq]
    dsimp only
    refine ⟨?_, ?_, ?_, ?_, ?_⟩
    · omega
    · intro i hi
      have hi2 : i < (buildTree c h).1.length := by omega
      rw [bl2 i hi2, bt3 i hi]
    · simpa using bl3
    · intro r hr
      rcases List.mem_cons.mp hr with hre | hrm
      · subst hre
        constructor
        · exact bt1
        · omega
      · obtain ⟨hr1, hr2⟩ := bl4 r hrm
        constructor
        · omega
        · exact hr2
    · intro h2 fuel hsh hfuel
      have hshq : shapeBelow (buildTree c h).1.length (buildTree c h).1 h2 := by
        intro j hj
        rw [← bl2 j hj]
        exact hsh j (by omega)
      have hfq : (buildTree c h).2 < fuel := by omega
      simp only [List.map_cons]
      rw [bt4 h2 fuel hshq hfq, bl5 h2 fuel hsh hfuel]

theorem buildTree_spec_aux :
    ∀ (n : Nat) (c : PTree), sizeOf c ≤ n → ∀ h : Heap, BuildTreeOK c h := by
  intro n
  induction n with
  | zero =>
    intro c hc h
    exfalso
    cases c with
    | node nm i cs => simp [PTree.node.sizeOf_spec] at hc
  | succ n ih =>
    intro c hc h
    cases c with
    | node nm i cs =>
      have IH : ∀ c2 ∈ cs, ∀ h2 : Heap, BuildTreeOK c2 h2 := by
        intro c2 hc2 h2
        apply ih
        have h1 : sizeOf c2 < sizeOf cs := List.sizeOf_lt_of_mem hc2
        have h2s : sizeOf (PTree.node nm i cs)
            = 1 + sizeOf nm + sizeOf i + sizeOf cs := by
          simp [PTree.node.sizeOf_spec]
        omega
      obtain ⟨bl1, bl2, bl3, bl4, bl5⟩ := buildList_spec IH h
      have heq : buildTree (PTree.node nm i cs) h =
          (patchParents
            ((buildList cs h).1 ++ [⟨nm, none, (buildList cs h).2, i⟩])
            (buildList cs h).2 (buildList cs h).1.length,
           (buildList cs h).1.length) := rfl
      unfold BuildTreeOK
      rw [heq]
      dsimp only
      have hlenfin : (patchParents
          ((buildList cs h).1 ++ [⟨nm, none, (buildList cs h).2, i⟩])
          (buildList cs h).2 (buildList cs h).1.length).length
          = (buildList cs h).1.length + 1 := by
        rw [length_patchParents]
        simp
      refine ⟨bl1, by rw [hlenfin], ?_, ?_⟩
      · intro j hj
        have hjn : j ∉ (buildList cs h).2 := by
          intro hmem
          obtain ⟨hge, _⟩ := bl4 j hmem
          omega
        rw [getN_patchParents_not_mem hjn,
          getN_append_lt (by omega), bl2 j hj]
      · intro h2 fuel hsh hfuel
        cases fuel with
        | zero => omega
        | succ f =>
          have hrn : (buildList cs h).1.length ∉ (buildList cs h).2 := by
            intro hmem
            obtain ⟨_, hlt⟩ := bl4 _ hmem
            omega
          have hfin : getN (patchParents
              ((buildList cs h).1 ++ [⟨nm, none, (buildList cs h).2, i⟩])
              (buildList cs h).2 (buildList cs h).1.length)
              (buildList cs h).1.length
              = some ⟨nm, none, (buildList cs h).2, i⟩ := by
            rw [getN_patchParents_not_mem hrn, getN_append_self]
          have hr2 : (getN h2 (buildList cs h).1.length).map nodeShape
              = some (nm, i, (buildList cs h).2) := by
            have := hsh (buildList cs h).1.length (by omega)
            rw [hfin] at this
            exact this.symm
          obtain ⟨d2, hd2, hd2s⟩ := Option.map_eq_some'.mp hr2
          have hname : d2.name = nm := congrArg Prod.fst hd2s
          have hid : d2.id = i := congrArg (fun x => x.2.1) hd2s
          have hch : d2.children = (buildList cs h).2 :=
            congrArg (fun x => x.2.2) hd2s
          have hshp : shapeBelow (buildList cs h).1.length (buildList cs h).1 h2 := by
            intro j hj
            have hstep := hsh j (by omega)
            rw [shape_patchParents j, getN_append_lt hj] at hstep
            exact hstep
          simp only [extract, hd2]
          rw [hname, hid, hch, bl5 h2 f hshp (by omega)]

theorem buildTreeOK_all (c : PTree) (h : Heap) : BuildTreeOK c h :=
  buildTree_spec_aux (sizeOf c) c le_rfl h

theorem extract_idOf {h : Heap} {r fuel : Nat} (hr : r < h.length)
    (hf : 0 < fuel) : (extract h fuel r).idOf = idOfRef h r := by
  cases fuel with
  | zero => omega
  | succ f =>
    obtain ⟨d, hd⟩ := getN_isSome_of_lt hr
    simp [extract, hd, PTree.idOf, idOfRef]

end PersistenceLemmas

/-- C5: loading the result of saving a tree yields a tree with identical
name, root identifier 0, identical parent/child structure, identical
operation descriptor names and identifiers on every node (the extracted
structural trees coincide), and identical next-identifier counter.  The
serialization itself is modelled from the spec (pickle's byte layout is
implementation-defined); the theorem proves that rebuilding the object
graph from the stored snapshot reproduces every stored attribute. -/
theorem save_load_round_trip (h : Heap) (t : TTree)
    (hroot : t.root < h.length) (hrid : idOfRef h t.root = some 0) :
    let s := TTree.save h t
    let l := load_tree s
    l.2.name = t.name ∧
    l.2.id_iterator = t.id_iterator ∧
    extract l.1 l.1.length l.2.root = extract h h.length t.root ∧
    idOfRef l.1 l.2.root = some 0 := by
  obtain ⟨bt1, bt2, bt3, bt4⟩ := buildTreeOK_all (TTree.save h t).stree []
  have hmain : extract (buildTree (TTree.save h t).stree []).1
      (buildTree (TTree.save h t).stree []).1.length
      (buildTree (TTree.save h t).stree []).2 = (TTree.save h t).stree := by
    apply bt4
    · intro j hj
      rfl
    · omega
  refine ⟨rfl, rfl, hmain, ?_⟩
  have h3 := congrArg PTree.idOf hmain
  rw [extract_idOf (by omega) (by omega)] at h3
  have h4 : ((TTree.save h t).stree).idOf = some 0 := by
    show (extract h h.length t.root).idOf = some 0
    rw [extract_idOf hroot (by omega), hrid]
  exact h3.trans h4

/-- Witness for C5: a two-node tree (root id 0 with one child id 1,
counter 2) survives the save/load round trip. -/
theorem save_load_round_trip_witness :
    let h0 : Heap := [⟨"root", none, [1], some 0⟩, ⟨"a", some 0, [], some 1⟩]
    let t0 : TTree := ⟨"mytree", 0, 2, [0, 1]⟩
    let s := TTree.save h0 t0
    let l := load_tree s
    l.2.name = t0.name ∧
    l.2.id_iterator = t0.id_iterator ∧
    extract l.1 l.1.length l.2.root = extract h0 h0.length t0.root ∧
    idOfRef l.1 l.2.root = some 0 :=
  save_load_round_trip
    [⟨"root", none, [1], some 0⟩, ⟨"a", some 0, [], some 1⟩]
    ⟨"mytree", 0, 2, [0, 1]⟩ (by decide) rfl
